import Mathlib

/-!
Shallow embedding of the numeric vision kernels in `release/student.py`:
photometric stereo, Gaussian pyramid filters, pinhole projection and
unprojection, and NCC patch preprocessing.  Images are total functions
`Fin H → Fin W → Fin C → ℚ` (or `→ ℝ` where the source divides by a
Euclidean norm); machine floats are modelled as exact arithmetic.
-/

open Finset Matrix

/-! ## NCC patch preprocessing (`preprocess_ncc_impl`) -/

/-- `low = -(ncc_size // 2)` from the source. -/
def nccLow (n : ℕ) : ℤ := -((n / 2 : ℕ) : ℤ)

/-- `high = ncc_size // 2` from the source. -/
def nccHigh (n : ℕ) : ℤ := ((n / 2 : ℕ) : ℤ)

/-- The in-bounds test of the source: the window centred at `(y, x)` with
offsets `low .. high` stays inside the `H × W` image. -/
def nccInBounds (H W n : ℕ) (y : Fin H) (x : Fin W) : Prop :=
  0 ≤ (y : ℤ) + nccLow n ∧ 0 ≤ (x : ℤ) + nccLow n ∧
    (y : ℤ) + nccHigh n < (H : ℤ) ∧ (x : ℤ) + nccHigh n < (W : ℤ)

instance (H W n : ℕ) (y : Fin H) (x : Fin W) : Decidable (nccInBounds H W n y x) :=
  inferInstanceAs (Decidable (0 ≤ (y : ℤ) + nccLow n ∧ 0 ≤ (x : ℤ) + nccLow n ∧
    (y : ℤ) + nccHigh n < (H : ℤ) ∧ (x : ℤ) + nccHigh n < (W : ℤ)))

/-- The patch array `ans[y, x, :]` after the extraction loop of the source:
component `i` holds channel `i / n²` of the patch at row offset
`(i % n²) / n` and column offset `(i % n²) % n` when the window is in
bounds, and `0` otherwise (the array stays zero-initialized there). -/
def nccAns {H W C : ℕ} (image : Fin H → Fin W → Fin C → ℚ) (n : ℕ)
    (y : Fin H) (x : Fin W) (i : Fin (C * (n * n))) : ℚ :=
  if h : nccInBounds H W n y x then
    image
      ⟨((y : ℤ) + nccLow n + ((i.modNat.divNat : ℕ) : ℤ)).toNat, by
        have hr := i.modNat.divNat.isLt
        have h1 := h.1
        have h3 := h.2.2.1
        unfold nccLow nccHigh at *
        omega⟩
      ⟨((x : ℤ) + nccLow n + ((i.modNat.modNat : ℕ) : ℤ)).toNat, by
        have hc := i.modNat.modNat.isLt
        have h2 := h.2.1
        have h4 := h.2.2.2
        unfold nccLow nccHigh at *
        omega⟩
      i.divNat
  else 0

/-- `np.mean(ans, axis=2)` at pixel `(y, x)`. -/
def nccMean {H W C : ℕ} (image : Fin H → Fin W → Fin C → ℚ) (n : ℕ)
    (y : Fin H) (x : Fin W) : ℚ :=
  (∑ i : Fin (C * (n * n)), nccAns image n y x i) / ((C * (n * n) : ℕ) : ℚ)

/-- The patch vector after `ans -= np.mean(ans, axis=2)[:, :, np.newaxis]`. -/
def nccCentered {H W C : ℕ} (image : Fin H → Fin W → Fin C → ℚ) (n : ℕ)
    (y : Fin H) (x : Fin W) (i : Fin (C * (n * n))) : ℚ :=
  nccAns image n y x i - nccMean image n y x

/-- Squared L2 norm of the mean-subtracted patch vector at `(y, x)`. -/
def nccNormSq {H W C : ℕ} (image : Fin H → Fin W → Fin C → ℚ) (n : ℕ)
    (y : Fin H) (x : Fin W) : ℚ :=
  ∑ i : Fin (C * (n * n)), nccCentered image n y x i ^ 2

/-- `np.linalg.norm(ans, axis=2)` at pixel `(y, x)`. -/
noncomputable def nccNorm {H W C : ℕ} (image : Fin H → Fin W → Fin C → ℚ) (n : ℕ)
    (y : Fin H) (x : Fin W) : ℝ :=
  Real.sqrt ((nccNormSq image n y x : ℚ) : ℝ)

/-- `preprocess_ncc_impl`: the final `ans /= norm` with the source's
`norm[norm == 0] = 1` guard. -/
noncomputable def preprocess_ncc_impl {H W C : ℕ} (image : Fin H → Fin W → Fin C → ℚ)
    (n : ℕ) (y : Fin H) (x : Fin W) (i : Fin (C * (n * n))) : ℝ :=
  ((nccCentered image n y x i : ℚ) : ℝ) /
    (if nccNorm image n y x = 0 then 1 else nccNorm image n y x)

/-! Spec-side description of the in-bounds behaviour (for claim C2): flatten
the patch channel-major / row-major, subtract the mean of the entire
flattened vector, divide by the L2 norm of the whole resulting vector. -/

/-- Modelled from the spec: the flattened patch at an in-bounds pixel,
channel block `k`, row offset `r`, column offset `c`. -/
def nccPatchSpec {H W C : ℕ} (image : Fin H → Fin W → Fin C → ℚ) (n : ℕ)
    (y : Fin H) (x : Fin W) (h : nccInBounds H W n y x)
    (k : Fin C) (r : Fin n) (c : Fin n) : ℚ :=
  image
    ⟨((y : ℤ) + nccLow n + (r : ℕ)).toNat, by
      have hr := r.isLt
      have h1 := h.1
      have h3 := h.2.2.1
      unfold nccLow nccHigh at *
      omega⟩
    ⟨((x : ℤ) + nccLow n + (c : ℕ)).toNat, by
      have hc := c.isLt
      have h2 := h.2.1
      have h4 := h.2.2.2
      unfold nccLow nccHigh at *
      omega⟩
    k

/-- Modelled from the spec: mean over the entire flattened
`channels × ncc_size²` vector. -/
def nccMeanSpec {H W C : ℕ} (image : Fin H → Fin W → Fin C → ℚ) (n : ℕ)
    (y : Fin H) (x : Fin W) (h : nccInBounds H W n y x) : ℚ :=
  (∑ k : Fin C, ∑ r : Fin n, ∑ c : Fin n, nccPatchSpec image n y x h k r c) /
    ((C * (n * n) : ℕ) : ℚ)

/-- Modelled from the spec: squared L2 norm over the whole mean-subtracted
flattened vector. -/
def nccNormSqSpec {H W C : ℕ} (image : Fin H → Fin W → Fin C → ℚ) (n : ℕ)
    (y : Fin H) (x : Fin W) (h : nccInBounds H W n y x) : ℚ :=
  ∑ k : Fin C, ∑ r : Fin n, ∑ c : Fin n,
    (nccPatchSpec image n y x h k r c - nccMeanSpec image n y x h) ^ 2

/-- Concrete 1×1 image with two channels `(0, 1e-7)`. -/
def imgTiny : Fin 1 → Fin 1 → Fin 2 → ℚ :=
  fun _ _ c => if c = 0 then 0 else 1 / 10000000

/-- Concrete 1×1 single-channel image with value 5. -/
def imgOne : Fin 1 → Fin 1 → Fin 1 → ℚ := fun _ _ _ => 5

/-- Concrete 2×2 single-channel image, all ones. -/
def imgTwo : Fin 2 → Fin 2 → Fin 1 → ℚ := fun _ _ _ => 1

/-! ## Gaussian pyramid filters (`pyrdown_impl`, `pyrup_impl`) -/

/-- `cv2.BORDER_REFLECT_101` index reflection (scipy mode `mirror`): the
edge sample is not repeated.  For `n ≥ 2` the reflected index is periodic
with period `2n - 2`. -/
def reflect101 (n : ℕ) (i : ℤ) : ℕ :=
  if n ≤ 1 then 0
  else
    if i % (2 * (n : ℤ) - 2) < (n : ℤ) then (i % (2 * (n : ℤ) - 2)).toNat
    else (2 * (n : ℤ) - 2 - i % (2 * (n : ℤ) - 2)).toNat

theorem reflect101_lt (n : ℕ) (i : ℤ) (hn : 0 < n) : reflect101 n i < n := by
  unfold reflect101
  split
  · omega
  · have hp : (0 : ℤ) < 2 * (n : ℤ) - 2 := by omega
    have h1 := Int.emod_nonneg i (by omega : (2 * (n : ℤ) - 2) ≠ 0)
    have h2 := Int.emod_lt_of_pos i hp
    split <;> omega

/-- Correlation along the vertical axis with a 5-tap kernel anchored at its
centre, with reflect-101 borders: what `cv2.filter2D` does with kernel
`K[:, np.newaxis]`. -/
def corrV {H W C : ℕ} (k : Fin 5 → ℚ) (img : Fin H → Fin W → Fin C → ℚ) :
    Fin H → Fin W → Fin C → ℚ :=
  fun y x c => ∑ i : Fin 5,
    k i * img ⟨reflect101 H ((y : ℤ) + (i : ℕ) - 2), reflect101_lt H _ y.pos⟩ x c

/-- Correlation along the horizontal axis (kernel `K[:, np.newaxis].T`). -/
def corrH {H W C : ℕ} (k : Fin 5 → ℚ) (img : Fin H → Fin W → Fin C → ℚ) :
    Fin H → Fin W → Fin C → ℚ :=
  fun y x c => ∑ i : Fin 5,
    k i * img y ⟨reflect101 W ((x : ℤ) + (i : ℕ) - 2), reflect101_lt W _ x.pos⟩ c

/-- Modelled from the spec: true convolution (kernel flipped) along the
vertical axis, mirror borders. -/
def convV {H W C : ℕ} (k : Fin 5 → ℚ) (img : Fin H → Fin W → Fin C → ℚ) :
    Fin H → Fin W → Fin C → ℚ :=
  fun y x c => ∑ i : Fin 5,
    k i * img ⟨reflect101 H ((y : ℤ) - ((i : ℕ) - 2)), reflect101_lt H _ y.pos⟩ x c

/-- Modelled from the spec: true convolution along the horizontal axis. -/
def convH {H W C : ℕ} (k : Fin 5 → ℚ) (img : Fin H → Fin W → Fin C → ℚ) :
    Fin H → Fin W → Fin C → ℚ :=
  fun y x c => ∑ i : Fin 5,
    k i * img y ⟨reflect101 W ((x : ℤ) - ((i : ℕ) - 2)), reflect101_lt W _ x.pos⟩ c

/-- The downsampling kernel `[1, 4, 6, 4, 1] / 16`. -/
def kernDown : Fin 5 → ℚ := fun i => ![1, 4, 6, 4, 1] i / 16

/-- The upsampling kernel `[1, 4, 6, 4, 1] / 8`. -/
def kernUp : Fin 5 → ℚ := fun i => ![1, 4, 6, 4, 1] i / 8

/-- `pyrdown_impl`: filter vertically then horizontally with
`[1,4,6,4,1]/16` (reflect-101 borders) and keep the even-indexed rows and
columns; the output has `⌈H/2⌉ × ⌈W/2⌉` pixels. -/
def pyrdown_impl {H W C : ℕ} (img : Fin H → Fin W → Fin C → ℚ) :
    Fin ((H + 1) / 2) → Fin ((W + 1) / 2) → Fin C → ℚ :=
  fun y x c =>
    corrH kernDown (corrV kernDown img)
      ⟨2 * (y : ℕ), by have := y.isLt; omega⟩
      ⟨2 * (x : ℕ), by have := x.isLt; omega⟩ c

/-- Modelled from the spec: separable convolution with `[1,4,6,4,1]/16`
along both axes (horizontal first), mirror borders, then subsampling at the
even indices. -/
def pyrdownSpec {H W C : ℕ} (img : Fin H → Fin W → Fin C → ℚ) :
    Fin ((H + 1) / 2) → Fin ((W + 1) / 2) → Fin C → ℚ :=
  fun y x c =>
    convV kernDown (convH kernDown img)
      ⟨2 * (y : ℕ), by have := y.isLt; omega⟩
      ⟨2 * (x : ℕ), by have := x.isLt; omega⟩ c

/-- `new_img = np.zeros(...); new_img[::2, ::2] = image`: the input samples
sit at the even indices of a zero array of double size. -/
def upsampleZeros {H W C : ℕ} (img : Fin H → Fin W → Fin C → ℚ) :
    Fin (2 * H) → Fin (2 * W) → Fin C → ℚ :=
  fun y x c =>
    if h : (y : ℕ) % 2 = 0 ∧ (x : ℕ) % 2 = 0 then
      img ⟨(y : ℕ) / 2, by have := y.isLt; omega⟩
        ⟨(x : ℕ) / 2, by have := x.isLt; omega⟩ c
    else 0

/-- `pyrup_impl`: zero-insertion upsampling followed by vertical then
horizontal filtering with `[1,4,6,4,1]/8`, reflect-101 borders; output is
`2H × 2W × C`. -/
def pyrup_impl {H W C : ℕ} (img : Fin H → Fin W → Fin C → ℚ) :
    Fin (2 * H) → Fin (2 * W) → Fin C → ℚ :=
  fun y x c => corrH kernUp (corrV kernUp (upsampleZeros img)) y x c

/-- Modelled from the spec: zero-insertion then separable convolution with
`[1,4,6,4,1]/8` along both axes (horizontal first), mirror borders. -/
def pyrupSpec {H W C : ℕ} (img : Fin H → Fin W → Fin C → ℚ) :
    Fin (2 * H) → Fin (2 * W) → Fin C → ℚ :=
  fun y x c => convV kernUp (convH kernUp (upsampleZeros img)) y x c

/-! ## Camera projection (`project_impl`, `unproject_corners_impl`) -/

/-- Explicit 3×3 inverse `det⁻¹ • adjugate`, modelling `np.linalg.inv`
(which mathematically returns the inverse of a nonsingular matrix). -/
def inv3 {α : Type} [Field α] (A : Matrix (Fin 3) (Fin 3) α) : Matrix (Fin 3) (Fin 3) α :=
  A.det⁻¹ • A.adjugate

/-- `location = K @ (Rt @ append(p, 1))` from the source. -/
def projLoc (K : Matrix (Fin 3) (Fin 3) ℚ) (Rt : Matrix (Fin 3) (Fin 4) ℚ)
    (p : Fin 3 → ℚ) : Fin 3 → ℚ :=
  K.mulVec (Rt.mulVec (Fin.snoc p 1))

/-- `project_impl`: per pixel, output `location[:2] / location[2]` when
`location[2] >= 1e-7`, else the zero the array was initialized with. -/
def project_impl {H W : ℕ} (K : Matrix (Fin 3) (Fin 3) ℚ) (Rt : Matrix (Fin 3) (Fin 4) ℚ)
    (points : Fin H → Fin W → Fin 3 → ℚ) : Fin H → Fin W → Fin 2 → ℚ :=
  fun y x i =>
    if 1 / 10000000 ≤ projLoc K Rt (points y x) 2 then
      projLoc K Rt (points y x) i.castSucc / projLoc K Rt (points y x) 2
    else 0

/-- The homogeneous image corners `[[(0,0,1),(w,0,1)],[(0,h,1),(w,h,1)]]`
as reshaped by the source into a 2×2 grid of 3-vectors. -/
def corners0 (w h : ℚ) : Fin 2 → Fin 2 → Fin 3 → ℚ :=
  ![![![0, 0, 1], ![w, 0, 1]], ![![0, h, 1], ![w, h, 1]]]

/-- `R = Rt[:3, :3]`. -/
def rtR (Rt : Matrix (Fin 3) (Fin 4) ℚ) : Matrix (Fin 3) (Fin 3) ℚ :=
  fun a b => Rt a b.castSucc

/-- `t = Rt[:3, 3]`. -/
def rtT (Rt : Matrix (Fin 3) (Fin 4) ℚ) : Fin 3 → ℚ := fun a => Rt a 3

/-- `unproject_corners_impl`: tensordot with `inv(K).T`, scale by `depth`,
tensordot with `R`, then subtract the broadcast `R.T @ t`. -/
def unproject_corners_impl (K : Matrix (Fin 3) (Fin 3) ℚ) (w h depth : ℚ)
    (Rt : Matrix (Fin 3) (Fin 4) ℚ) : Fin 2 → Fin 2 → Fin 3 → ℚ :=
  fun i j c =>
    (∑ k : Fin 3,
        (∑ m : Fin 3, corners0 w h i j m * (inv3 K)ᵀ m k) * depth * rtR Rt k c) -
      ∑ k : Fin 3, rtR Rt k c * rtT Rt k

/-- Concrete identity extrinsics `[I | 0]` for the unprojection witness. -/
def rtId : Matrix (Fin 3) (Fin 4) ℚ :=
  Matrix.of ![![1, 0, 0, 0], ![0, 1, 0, 0], ![0, 0, 1, 0]]

/-! ## Photometric stereo (`compute_photometric_stereo_impl`) -/

/-- `I[y, x, :]`: channel 0 of each input image stacked across lights. -/
def psI {H W C N : ℕ} (images : Fin N → Fin H → Fin W → Fin (C + 1) → ℝ)
    (y : Fin H) (x : Fin W) : Fin N → ℝ :=
  fun j => images j y x 0

/-- `G = I @ lights.T @ inv(lights @ lights.T)` at pixel `(y, x)`. -/
noncomputable def psG {H W C N : ℕ} (lights : Matrix (Fin 3) (Fin N) ℝ)
    (images : Fin N → Fin H → Fin W → Fin (C + 1) → ℝ)
    (y : Fin H) (x : Fin W) : Fin 3 → ℝ :=
  fun c => ∑ k : Fin 3,
    (∑ j : Fin N, psI images y x j * lights k j) * inv3 (lights * lightsᵀ) k c

/-- `kd = np.linalg.norm(G, axis=2)`. -/
noncomputable def psKd {H W C N : ℕ} (lights : Matrix (Fin 3) (Fin N) ℝ)
    (images : Fin N → Fin H → Fin W → Fin (C + 1) → ℝ)
    (y : Fin H) (x : Fin W) : ℝ :=
  Real.sqrt (∑ c : Fin 3, psG lights images y x c ^ 2)

/-- `kd = np.where(kd == 0, 1e-7, kd)`. -/
noncomputable def psKdGuard {H W C N : ℕ} (lights : Matrix (Fin 3) (Fin N) ℝ)
    (images : Fin N → Fin H → Fin W → Fin (C + 1) → ℝ)
    (y : Fin H) (x : Fin W) : ℝ :=
  if psKd lights images y x = 0 then 1 / 10000000 else psKd lights images y x

/-- `normals = G / kd[:, :, np.newaxis]`. -/
noncomputable def psNormals0 {H W C N : ℕ} (lights : Matrix (Fin 3) (Fin N) ℝ)
    (images : Fin N → Fin H → Fin W → Fin (C + 1) → ℝ)
    (y : Fin H) (x : Fin W) (c : Fin 3) : ℝ :=
  psG lights images y x c / psKdGuard lights images y x

/-- `normals[kd == 0] = 0` (on the already guarded `kd`). -/
noncomputable def psNormals1 {H W C N : ℕ} (lights : Matrix (Fin 3) (Fin N) ℝ)
    (images : Fin N → Fin H → Fin W → Fin (C + 1) → ℝ)
    (y : Fin H) (x : Fin W) (c : Fin 3) : ℝ :=
  if psKdGuard lights images y x = 0 then 0 else psNormals0 lights images y x c

/-- `np.dot(normals, lights[:, j])` at pixel `(y, x)`. -/
noncomputable def psDotNL {H W C N : ℕ} (lights : Matrix (Fin 3) (Fin N) ℝ)
    (images : Fin N → Fin H → Fin W → Fin (C + 1) → ℝ)
    (y : Fin H) (x : Fin W) (j : Fin N) : ℝ :=
  ∑ c : Fin 3, psNormals1 lights images y x c * lights c j

/-- Accumulated `num` after the loop over lights. -/
noncomputable def psNum {H W C N : ℕ} (lights : Matrix (Fin 3) (Fin N) ℝ)
    (images : Fin N → Fin H → Fin W → Fin (C + 1) → ℝ)
    (y : Fin H) (x : Fin W) (ch : Fin (C + 1)) : ℝ :=
  ∑ j : Fin N, psDotNL lights images y x j * images j y x ch

/-- Accumulated `den` after the loop over lights. -/
noncomputable def psDen {H W C N : ℕ} (lights : Matrix (Fin 3) (Fin N) ℝ)
    (images : Fin N → Fin H → Fin W → Fin (C + 1) → ℝ)
    (y : Fin H) (x : Fin W) (ch : Fin (C + 1)) : ℝ :=
  ∑ j : Fin N, psDotNL lights images y x j ^ 2

/-- `den[den == 0] = 1`. -/
noncomputable def psDenGuard {H W C N : ℕ} (lights : Matrix (Fin 3) (Fin N) ℝ)
    (images : Fin N → Fin H → Fin W → Fin (C + 1) → ℝ)
    (y : Fin H) (x : Fin W) (ch : Fin (C + 1)) : ℝ :=
  if psDen lights images y x ch = 0 then 1 else psDen lights images y x ch

/-- `albedo = np.divide(num, den, where=den > 0)`; after the guard `den` is
strictly positive everywhere (see `psDenGuard_pos`), so the mask is
all-true and this is a plain division. -/
noncomputable def psAlbedo0 {H W C N : ℕ} (lights : Matrix (Fin 3) (Fin N) ℝ)
    (images : Fin N → Fin H → Fin W → Fin (C + 1) → ℝ)
    (y : Fin H) (x : Fin W) (ch : Fin (C + 1)) : ℝ :=
  psNum lights images y x ch / psDenGuard lights images y x ch

/-- `mask = np.linalg.norm(albedo, axis=2) < 1e-7`. -/
def psMask {H W C N : ℕ} (lights : Matrix (Fin 3) (Fin N) ℝ)
    (images : Fin N → Fin H → Fin W → Fin (C + 1) → ℝ)
    (y : Fin H) (x : Fin W) : Prop :=
  Real.sqrt (∑ ch : Fin (C + 1), psAlbedo0 lights images y x ch ^ 2) < 1 / 10000000

noncomputable instance {H W C N : ℕ} (lights : Matrix (Fin 3) (Fin N) ℝ)
    (images : Fin N → Fin H → Fin W → Fin (C + 1) → ℝ)
    (y : Fin H) (x : Fin W) : Decidable (psMask lights images y x) := by
  unfold psMask; infer_instance

/-- The returned albedo: `albedo[mask] = 0`. -/
noncomputable def psAlbedoOut {H W C N : ℕ} (lights : Matrix (Fin 3) (Fin N) ℝ)
    (images : Fin N → Fin H → Fin W → Fin (C + 1) → ℝ)
    (y : Fin H) (x : Fin W) (ch : Fin (C + 1)) : ℝ :=
  if psMask lights images y x then 0 else psAlbedo0 lights images y x ch

/-- The returned normals: `normals[mask] = 0`. -/
noncomputable def psNormalsOut {H W C N : ℕ} (lights : Matrix (Fin 3) (Fin N) ℝ)
    (images : Fin N → Fin H → Fin W → Fin (C + 1) → ℝ)
    (y : Fin H) (x : Fin W) (c : Fin 3) : ℝ :=
  if psMask lights images y x then 0 else psNormals1 lights images y x c

/-- `compute_photometric_stereo_impl` returns the pair
`(albedo, normals)` after the final degeneracy mask. -/
noncomputable def compute_photometric_stereo_impl {H W C N : ℕ}
    (lights : Matrix (Fin 3) (Fin N) ℝ)
    (images : Fin N → Fin H → Fin W → Fin (C + 1) → ℝ) :
    (Fin H → Fin W → Fin (C + 1) → ℝ) × (Fin H → Fin W → Fin 3 → ℝ) :=
  (fun y x ch => psAlbedoOut lights images y x ch,
   fun y x c => psNormalsOut lights images y x c)

/-- Concrete identity light matrix (three axis-aligned lights). -/
def lightsId : Matrix (Fin 3) (Fin 3) ℝ := 1

/-- Concrete images for the stereo witness: pixel value 1 under the first
light, 0 under the others. -/
def imgsPS : Fin 3 → Fin 1 → Fin 1 → Fin 1 → ℝ :=
  fun j _ _ _ => if j = 0 then 1 else 0

/-- All-black images: the degenerate photometric stereo input. -/
def imgsZero : Fin 3 → Fin 1 → Fin 1 → Fin 1 → ℝ := fun _ _ _ _ => 0

/-! ## Theorems -/

theorem nccAns_border (H W C : ℕ) (image : Fin H → Fin W → Fin C → ℚ) (n : ℕ)
    (y : Fin H) (x : Fin W) (h : ¬ nccInBounds H W n y x) (i : Fin (C * (n * n))) :
    nccAns image n y x i = 0 :=
  dif_neg h

theorem nccCentered_sum (H W C : ℕ) (image : Fin H → Fin W → Fin C → ℚ) (n : ℕ)
    (y : Fin H) (x : Fin W) :
    ∑ i : Fin (C * (n * n)), nccCentered image n y x i = 0 := by
  unfold nccCentered nccMean
  rw [Finset.sum_sub_distrib, Finset.sum_const, Finset.card_univ, Fintype.card_fin,
    nsmul_eq_mul]
  rcases eq_or_ne ((C * (n * n) : ℕ) : ℚ) 0 with hc | hc
  · rw [hc, zero_mul, sub_zero]
    refine Finset.sum_eq_zero fun i _ => ?_
    have h0 : C * (n * n) = 0 := by exact_mod_cast hc
    exact absurd i.isLt (by omega)
  · push_cast at hc ⊢
    rw [mul_div_cancel₀ _ hc, sub_self]

/-- C6: for every image and odd `ncc_size`, a pixel whose window extends
outside the image bounds gets the exact zero feature vector. -/
theorem preprocess_ncc_border_zero {H W C : ℕ} (image : Fin H → Fin W → Fin C → ℚ)
    (n : ℕ) (y : Fin H) (x : Fin W) (hodd : n % 2 = 1)
    (h : ¬ nccInBounds H W n y x) (i : Fin (C * (n * n))) :
    preprocess_ncc_impl image n y x i = 0 := by
  have hcent : nccCentered image n y x i = 0 := by
    unfold nccCentered nccMean
    rw [nccAns_border H W C image n y x h i,
      Finset.sum_eq_zero fun j _ => nccAns_border H W C image n y x h j]
    simp
  unfold preprocess_ncc_impl
  rw [hcent]
  simp

/-- C6 witness: the top-left pixel of a 2×2 image with a 3×3 window. -/
theorem preprocess_ncc_border_zero_witness :
    3 % 2 = 1 ∧ ¬ nccInBounds 2 2 3 0 0 ∧
      preprocess_ncc_impl imgTwo 3 0 0 ⟨0, by norm_num⟩ = 0 := by
  refine ⟨rfl, by decide, ?_⟩
  exact preprocess_ncc_border_zero imgTwo 3 0 0 rfl (by decide) _

/-- C10: every per-pixel output feature vector of `preprocess_ncc_impl`
has components summing to zero in exact arithmetic. -/
theorem preprocess_ncc_zero_sum {H W C : ℕ} (image : Fin H → Fin W → Fin C → ℚ)
    (n : ℕ) (y : Fin H) (x : Fin W) (hodd : n % 2 = 1) :
    ∑ i : Fin (C * (n * n)), preprocess_ncc_impl image n y x i = 0 := by
  unfold preprocess_ncc_impl
  rw [← Finset.sum_div]
  have h2 : ∑ i : Fin (C * (n * n)), ((nccCentered image n y x i : ℚ) : ℝ) = 0 := by
    exact_mod_cast nccCentered_sum H W C image n y x
  rw [h2, zero_div]

/-- C10 witness: concrete 1×1 single-channel image, patch size 1. -/
theorem preprocess_ncc_zero_sum_witness :
    1 % 2 = 1 ∧ ∑ i : Fin (1 * (1 * 1)), preprocess_ncc_impl imgOne 1 0 0 i = 0 :=
  ⟨rfl, preprocess_ncc_zero_sum imgOne 1 0 0 rfl⟩

/-- C1 (code bug evidence): on the 1×1 two-channel image `(0, 1e-7)` with
`ncc_size = 1`, the mean-subtracted patch vector has L2 norm strictly
between 0 and 1e-6, yet `preprocess_ncc_impl` does not zero it: the code
only guards `norm == 0`, contradicting its docstring's `norm < 1e-6`
policy. -/
theorem preprocess_ncc_small_norm_not_zeroed :
    nccNormSq imgTiny 1 0 0 ≠ 0 ∧
    nccNorm imgTiny 1 0 0 < 1 / 1000000 ∧
    preprocess_ncc_impl imgTiny 1 0 0 (1 : Fin 2) ≠ 0 := by
  have hin : nccInBounds 1 1 1 0 0 := by decide
  have e0 : nccAns imgTiny 1 0 0 (0 : Fin 2) = 0 := by
    unfold nccAns
    rw [dif_pos hin]
    unfold imgTiny
    rw [if_pos (by decide)]
  have e1 : nccAns imgTiny 1 0 0 (1 : Fin 2) = 1 / 10000000 := by
    unfold nccAns
    rw [dif_pos hin]
    unfold imgTiny
    rw [if_neg (by decide)]
  have hmean : nccMean imgTiny 1 0 0 = 1 / 20000000 := by
    unfold nccMean
    have hsum : ∑ i : Fin 2, nccAns imgTiny 1 0 0 i = 1 / 10000000 := by
      rw [Fin.sum_univ_two, e0, e1, zero_add]
    rw [show (∑ i : Fin (2 * (1 * 1)), nccAns imgTiny 1 0 0 i) =
      ∑ i : Fin 2, nccAns imgTiny 1 0 0 i from rfl, hsum]
    norm_num
  have hc0 : nccCentered imgTiny 1 0 0 (0 : Fin 2) = -(1 / 20000000) := by
    unfold nccCentered
    rw [e0, hmean]
    ring
  have h2 : nccCentered imgTiny 1 0 0 (1 : Fin 2) = 1 / 20000000 := by
    unfold nccCentered
    rw [e1, hmean]
    norm_num
  have h1 : nccNormSq imgTiny 1 0 0 = 1 / 200000000000000 := by
    unfold nccNormSq
    rw [show (∑ i : Fin (2 * (1 * 1)), nccCentered imgTiny 1 0 0 i ^ 2) =
      ∑ i : Fin 2, nccCentered imgTiny 1 0 0 i ^ 2 from rfl,
      Fin.sum_univ_two, hc0, h2]
    norm_num
  have hpos : (0 : ℝ) < ((nccNormSq imgTiny 1 0 0 : ℚ) : ℝ) := by
    rw [h1]; norm_num
  have hnorm : nccNorm imgTiny 1 0 0 ≠ 0 := by
    unfold nccNorm
    exact (Real.sqrt_pos.mpr hpos).ne'
  refine ⟨by rw [h1]; norm_num, ?_, ?_⟩
  · unfold nccNorm
    rw [Real.sqrt_lt' (by norm_num : (0 : ℝ) < 1 / 1000000), h1]
    norm_num
  · unfold preprocess_ncc_impl
    rw [if_neg hnorm, h2]
    exact div_ne_zero (by norm_num) hnorm

theorem img_reflect_congr_v {H W C : ℕ} (img : Fin H → Fin W → Fin C → ℚ)
    (x : Fin W) (c : Fin C) (hH : 0 < H) (a b : ℤ) (hab : a = b) :
    img ⟨reflect101 H a, reflect101_lt H a hH⟩ x c
      = img ⟨reflect101 H b, reflect101_lt H b hH⟩ x c := by
  subst hab; rfl

theorem img_reflect_congr_h {H W C : ℕ} (img : Fin H → Fin W → Fin C → ℚ)
    (y : Fin H) (c : Fin C) (hW : 0 < W) (a b : ℤ) (hab : a = b) :
    img y ⟨reflect101 W a, reflect101_lt W a hW⟩ c
      = img y ⟨reflect101 W b, reflect101_lt W b hW⟩ c := by
  subst hab; rfl

theorem corrV_eq_convV {H W C : ℕ} (k : Fin 5 → ℚ) (hk : ∀ i : Fin 5, k i = k i.rev)
    (img : Fin H → Fin W → Fin C → ℚ) : corrV k img = convV k img := by
  funext y x c
  unfold corrV convV
  refine Fintype.sum_equiv Fin.revPerm _ _ fun i => ?_
  simp only [Fin.revPerm_apply]
  rw [hk i, img_reflect_congr_v img x c y.pos ((y : ℤ) + ((i : ℕ) : ℤ) - 2)
    ((y : ℤ) - ((((i.rev : Fin 5) : ℕ) : ℤ) - 2))
    (by have h1 := i.isLt; have h2 := Fin.val_rev i; omega)]

theorem corrH_eq_convH {H W C : ℕ} (k : Fin 5 → ℚ) (hk : ∀ i : Fin 5, k i = k i.rev)
    (img : Fin H → Fin W → Fin C → ℚ) : corrH k img = convH k img := by
  funext y x c
  unfold corrH convH
  refine Fintype.sum_equiv Fin.revPerm _ _ fun i => ?_
  simp only [Fin.revPerm_apply]
  rw [hk i, img_reflect_congr_h img y c x.pos ((x : ℤ) + ((i : ℕ) : ℤ) - 2)
    ((x : ℤ) - ((((i.rev : Fin 5) : ℕ) : ℤ) - 2))
    (by have h1 := i.isLt; have h2 := Fin.val_rev i; omega)]

theorem corrH_corrV_comm {H W C : ℕ} (k k' : Fin 5 → ℚ)
    (img : Fin H → Fin W → Fin C → ℚ) :
    corrH k (corrV k' img) = corrV k' (corrH k img) := by
  funext y x c
  unfold corrH corrV
  simp_rw [Finset.mul_sum]
  rw [Finset.sum_comm]
  exact Finset.sum_congr rfl fun i _ => Finset.sum_congr rfl fun j _ => by ring

theorem corr_eq_conv_both {H W C : ℕ} (k : Fin 5 → ℚ) (hk : ∀ i : Fin 5, k i = k i.rev)
    (img : Fin H → Fin W → Fin C → ℚ) :
    corrH k (corrV k img) = convV k (convH k img) := by
  rw [corrH_corrV_comm, corrV_eq_convV k hk, corrH_eq_convH k hk]

theorem kernDown_symm : ∀ i : Fin 5, kernDown i = kernDown i.rev := by
  intro i; fin_cases i <;> rfl

theorem kernUp_symm : ∀ i : Fin 5, kernUp i = kernUp i.rev := by
  intro i; fin_cases i <;> rfl

/-- C7: `pyrdown_impl` equals separable convolution with `[1,4,6,4,1]/16`
along both axes under mirror boundaries followed by even-index subsampling
(the `⌈H/2⌉ × ⌈W/2⌉ × C` output shape is carried by the types). -/
theorem pyrdown_separable_conv_subsample {H W C : ℕ} (img : Fin H → Fin W → Fin C → ℚ)
    (y : Fin ((H + 1) / 2)) (x : Fin ((W + 1) / 2)) (c : Fin C) :
    pyrdown_impl img y x c = pyrdownSpec img y x c := by
  unfold pyrdown_impl pyrdownSpec
  rw [corr_eq_conv_both kernDown kernDown_symm img]

/-- C8: `pyrup_impl` equals zero-insertion upsampling to `2H × 2W × C`
followed by separable convolution with `[1,4,6,4,1]/8` along both axes
under mirror boundaries. -/
theorem pyrup_zero_insert_conv {H W C : ℕ} (img : Fin H → Fin W → Fin C → ℚ)
    (y : Fin (2 * H)) (x : Fin (2 * W)) (c : Fin C) :
    pyrup_impl img y x c = pyrupSpec img y x c := by
  unfold pyrup_impl pyrupSpec
  rw [corr_eq_conv_both kernUp kernUp_symm (upsampleZeros img)]

theorem finProdFin_divNat {m n : ℕ} (p : Fin m × Fin n) :
    (finProdFinEquiv p).divNat = p.1 := by
  have h := finProdFinEquiv.symm_apply_apply p
  rw [finProdFinEquiv_symm_apply] at h
  exact congrArg Prod.fst h

theorem finProdFin_modNat {m n : ℕ} (p : Fin m × Fin n) :
    (finProdFinEquiv p).modNat = p.2 := by
  have h := finProdFinEquiv.symm_apply_apply p
  rw [finProdFinEquiv_symm_apply] at h
  exact congrArg Prod.snd h

theorem sum_triple_decomp {C n : ℕ} (f : Fin (C * (n * n)) → ℚ) :
    ∑ i, f i = ∑ k : Fin C, ∑ r : Fin n, ∑ c : Fin n,
      f (finProdFinEquiv (k, finProdFinEquiv (r, c))) := by
  rw [← Equiv.sum_comp (((Equiv.refl (Fin C)).prodCongr finProdFinEquiv).trans
    finProdFinEquiv) f]
  rw [Fintype.sum_prod_type]
  refine Finset.sum_congr rfl fun k _ => ?_
  rw [Fintype.sum_prod_type]
  rfl

theorem nccAns_in_bounds {H W C : ℕ} (image : Fin H → Fin W → Fin C → ℚ) (n : ℕ)
    (y : Fin H) (x : Fin W) (h : nccInBounds H W n y x) (i : Fin (C * (n * n))) :
    nccAns image n y x i
      = nccPatchSpec image n y x h i.divNat i.modNat.divNat i.modNat.modNat := by
  unfold nccAns
  rw [dif_pos h]
  rfl

theorem nccAns_sum_spec {H W C : ℕ} (image : Fin H → Fin W → Fin C → ℚ) (n : ℕ)
    (y : Fin H) (x : Fin W) (h : nccInBounds H W n y x) :
    ∑ i : Fin (C * (n * n)), nccAns image n y x i
      = ∑ k : Fin C, ∑ r : Fin n, ∑ c : Fin n, nccPatchSpec image n y x h k r c := by
  rw [sum_triple_decomp]
  refine Finset.sum_congr rfl fun k _ => Finset.sum_congr rfl fun r _ =>
    Finset.sum_congr rfl fun c _ => ?_
  rw [nccAns_in_bounds image n y x h, finProdFin_divNat, finProdFin_modNat,
    finProdFin_divNat, finProdFin_modNat]

theorem nccMean_spec {H W C : ℕ} (image : Fin H → Fin W → Fin C → ℚ) (n : ℕ)
    (y : Fin H) (x : Fin W) (h : nccInBounds H W n y x) :
    nccMean image n y x = nccMeanSpec image n y x h := by
  unfold nccMean nccMeanSpec
  rw [nccAns_sum_spec image n y x h]

theorem nccCentered_spec {H W C : ℕ} (image : Fin H → Fin W → Fin C → ℚ) (n : ℕ)
    (y : Fin H) (x : Fin W) (h : nccInBounds H W n y x) (i : Fin (C * (n * n))) :
    nccCentered image n y x i
      = nccPatchSpec image n y x h i.divNat i.modNat.divNat i.modNat.modNat
        - nccMeanSpec image n y x h := by
  unfold nccCentered
  rw [nccAns_in_bounds image n y x h, nccMean_spec image n y x h]

theorem nccNormSq_spec {H W C : ℕ} (image : Fin H → Fin W → Fin C → ℚ) (n : ℕ)
    (y : Fin H) (x : Fin W) (h : nccInBounds H W n y x) :
    nccNormSq image n y x = nccNormSqSpec image n y x h := by
  unfold nccNormSq nccNormSqSpec
  rw [sum_triple_decomp]
  refine Finset.sum_congr rfl fun k _ => Finset.sum_congr rfl fun r _ =>
    Finset.sum_congr rfl fun c _ => ?_
  rw [nccCentered_spec image n y x h, finProdFin_divNat, finProdFin_modNat,
    finProdFin_divNat, finProdFin_modNat]

/-- C2: at an in-bounds pixel, the output vector is the flattened patch
minus the mean of the entire flattened vector, divided by the L2 norm of
the whole mean-subtracted vector. -/
theorem preprocess_ncc_whole_vector_mean_norm {H W C : ℕ}
    (image : Fin H → Fin W → Fin C → ℚ) (n : ℕ) (y : Fin H) (x : Fin W)
    (hodd : n % 2 = 1) (h : nccInBounds H W n y x) (i : Fin (C * (n * n))) :
    preprocess_ncc_impl image n y x i =
      ((nccPatchSpec image n y x h i.divNat i.modNat.divNat i.modNat.modNat
        - nccMeanSpec image n y x h : ℚ) : ℝ) /
        Real.sqrt ((nccNormSqSpec image n y x h : ℚ) : ℝ) := by
  unfold preprocess_ncc_impl
  rw [← nccCentered_spec image n y x h i, ← nccNormSq_spec image n y x h]
  rcases eq_or_ne (nccNormSq image n y x) 0 with h0 | h0
  · have hc : nccCentered image n y x i = 0 := by
      have hall := (Finset.sum_eq_zero_iff_of_nonneg
        (fun j _ => sq_nonneg (nccCentered image n y x j))).mp h0
      have := hall i (Finset.mem_univ i)
      exact pow_eq_zero_iff (two_ne_zero)|>.mp this
    rw [hc]
    norm_num
  · have hnorm : nccNorm image n y x ≠ 0 := by
      unfold nccNorm
      refine (Real.sqrt_pos.mpr ?_).ne'
      have hnn : (0 : ℚ) ≤ nccNormSq image n y x := by
        unfold nccNormSq
        exact Finset.sum_nonneg fun j _ => sq_nonneg _
      have : (0 : ℚ) < nccNormSq image n y x := lt_of_le_of_ne hnn (Ne.symm h0)
      exact_mod_cast this
    rw [if_neg hnorm]
    rfl

/-- C2 witness: the centre pixel of a 1×1 single-channel image with patch
size 1. -/
theorem preprocess_ncc_whole_vector_mean_norm_witness :
    1 % 2 = 1 ∧ nccInBounds 1 1 1 0 0 ∧
      preprocess_ncc_impl imgOne 1 0 0 ⟨0, by norm_num⟩ =
        ((nccPatchSpec imgOne 1 0 0 (by decide)
            (⟨0, by norm_num⟩ : Fin (1 * (1 * 1))).divNat
            (⟨0, by norm_num⟩ : Fin (1 * (1 * 1))).modNat.divNat
            (⟨0, by norm_num⟩ : Fin (1 * (1 * 1))).modNat.modNat
          - nccMeanSpec imgOne 1 0 0 (by decide) : ℚ) : ℝ) /
          Real.sqrt ((nccNormSqSpec imgOne 1 0 0 (by decide) : ℚ) : ℝ) :=
  ⟨rfl, by decide,
    preprocess_ncc_whole_vector_mean_norm imgOne 1 0 0 rfl (by decide) ⟨0, by norm_num⟩⟩

theorem psDenGuard_pos {H W C N : ℕ} (lights : Matrix (Fin 3) (Fin N) ℝ)
    (images : Fin N → Fin H → Fin W → Fin (C + 1) → ℝ)
    (y : Fin H) (x : Fin W) (ch : Fin (C + 1)) :
    0 < psDenGuard lights images y x ch := by
  have hnn : 0 ≤ psDen lights images y x ch := by
    unfold psDen
    exact Finset.sum_nonneg fun j _ => sq_nonneg _
  unfold psDenGuard
  split
  · norm_num
  · next hne => exact lt_of_le_of_ne hnn (Ne.symm hne)

theorem psG_zero_of_kd_zero {H W C N : ℕ} (lights : Matrix (Fin 3) (Fin N) ℝ)
    (images : Fin N → Fin H → Fin W → Fin (C + 1) → ℝ)
    (y : Fin H) (x : Fin W) (h : psKd lights images y x = 0) (c : Fin 3) :
    psG lights images y x c = 0 := by
  unfold psKd at h
  have hle := Real.sqrt_eq_zero'.mp h
  have hnn : (0 : ℝ) ≤ ∑ c : Fin 3, psG lights images y x c ^ 2 :=
    Finset.sum_nonneg fun j _ => sq_nonneg _
  have hz := le_antisymm hle hnn
  have hall := (Finset.sum_eq_zero_iff_of_nonneg
    (fun j _ => sq_nonneg (psG lights images y x j))).mp hz
  exact pow_eq_zero_iff two_ne_zero |>.mp (hall c (Finset.mem_univ c))

theorem psNormals1_zero_of_kd_zero {H W C N : ℕ} (lights : Matrix (Fin 3) (Fin N) ℝ)
    (images : Fin N → Fin H → Fin W → Fin (C + 1) → ℝ)
    (y : Fin H) (x : Fin W) (h : psKd lights images y x = 0) (c : Fin 3) :
    psNormals1 lights images y x c = 0 := by
  unfold psNormals1 psNormals0
  split
  · rfl
  · rw [psG_zero_of_kd_zero lights images y x h c, zero_div]

theorem psMask_of_kd_zero {H W C N : ℕ} (lights : Matrix (Fin 3) (Fin N) ℝ)
    (images : Fin N → Fin H → Fin W → Fin (C + 1) → ℝ)
    (y : Fin H) (x : Fin W) (h : psKd lights images y x = 0) :
    psMask lights images y x := by
  have halb : ∀ ch, psAlbedo0 lights images y x ch = 0 := by
    intro ch
    unfold psAlbedo0 psNum psDotNL
    rw [Finset.sum_eq_zero fun j _ => ?_, zero_div]
    rw [Finset.sum_eq_zero fun c _ => ?_, zero_mul]
    rw [psNormals1_zero_of_kd_zero lights images y x h c, zero_mul]
  unfold psMask
  rw [Finset.sum_eq_zero fun ch _ => by rw [halb ch]; exact zero_pow two_ne_zero]
  rw [Real.sqrt_zero]
  norm_num

theorem psNormals1_unit_of_kd_ne_zero {H W C N : ℕ} (lights : Matrix (Fin 3) (Fin N) ℝ)
    (images : Fin N → Fin H → Fin W → Fin (C + 1) → ℝ)
    (y : Fin H) (x : Fin W) (h : psKd lights images y x ≠ 0) :
    ∑ c : Fin 3, psNormals1 lights images y x c ^ 2 = 1 := by
  have hnn : (0 : ℝ) ≤ ∑ c : Fin 3, psG lights images y x c ^ 2 :=
    Finset.sum_nonneg fun j _ => sq_nonneg _
  have hpos : (0 : ℝ) < ∑ c : Fin 3, psG lights images y x c ^ 2 := by
    rcases lt_or_eq_of_le hnn with hlt | heq
    · exact hlt
    · exact absurd (by unfold psKd; rw [← heq, Real.sqrt_zero]) h
  have hguard : psKdGuard lights images y x = psKd lights images y x := by
    unfold psKdGuard
    rw [if_neg h]
  have hgne : psKdGuard lights images y x ≠ 0 := by rw [hguard]; exact h
  unfold psNormals1 psNormals0
  simp only [if_neg hgne]
  simp_rw [div_pow]
  rw [← Finset.sum_div, hguard]
  unfold psKd
  rw [Real.sq_sqrt hnn]
  exact div_self hpos.ne'

/-- C9: normalizing `G` never divides by zero: the guarded divisor is
nonzero at every pixel, and where `kd = ‖G‖` is zero the divisor is the
replacement value 1e-7 and the returned normal is the zero vector. -/
theorem photometric_stereo_kd_guard {H W C N : ℕ} (lights : Matrix (Fin 3) (Fin N) ℝ)
    (images : Fin N → Fin H → Fin W → Fin (C + 1) → ℝ)
    (hdet : (lights * lightsᵀ).det ≠ 0) (y : Fin H) (x : Fin W) :
    psKdGuard lights images y x ≠ 0 ∧
      (psKd lights images y x = 0 →
        psKdGuard lights images y x = 1 / 10000000 ∧
        ∀ c, (compute_photometric_stereo_impl lights images).2 y x c = 0) := by
  constructor
  · unfold psKdGuard
    split
    · norm_num
    · next hne => exact hne
  · intro h0
    refine ⟨by unfold psKdGuard; rw [if_pos h0], fun c => ?_⟩
    show psNormalsOut lights images y x c = 0
    unfold psNormalsOut
    split
    · rfl
    · exact psNormals1_zero_of_kd_zero lights images y x h0 c

/-- C9 witness: identity lights, concrete images. -/
theorem photometric_stereo_kd_guard_witness :
    (lightsId * lightsIdᵀ).det ≠ 0 ∧
      (psKdGuard lightsId imgsPS 0 0 ≠ 0 ∧
        (psKd lightsId imgsPS 0 0 = 0 →
          psKdGuard lightsId imgsPS 0 0 = 1 / 10000000 ∧
          ∀ c, (compute_photometric_stereo_impl lightsId imgsPS).2 0 0 c = 0)) :=
  ⟨by simp [lightsId],
    photometric_stereo_kd_guard lightsId imgsPS (by simp [lightsId]) 0 0⟩

/-- C3: wherever the returned albedo is nonzero the returned normal has L2
norm within 1e-5 of 1, and wherever the returned albedo's L2 norm across
channels is below 1e-7 both returned outputs are exactly zero. -/
theorem photometric_stereo_normal_unit_and_zero_policy {H W C N : ℕ}
    (lights : Matrix (Fin 3) (Fin N) ℝ)
    (images : Fin N → Fin H → Fin W → Fin (C + 1) → ℝ)
    (hdet : (lights * lightsᵀ).det ≠ 0) (y : Fin H) (x : Fin W) :
    ((∃ ch, (compute_photometric_stereo_impl lights images).1 y x ch ≠ 0) →
      |Real.sqrt (∑ c : Fin 3,
          (compute_photometric_stereo_impl lights images).2 y x c ^ 2) - 1|
        ≤ 1 / 100000) ∧
    (Real.sqrt (∑ ch : Fin (C + 1),
        (compute_photometric_stereo_impl lights images).1 y x ch ^ 2) < 1 / 10000000 →
      (∀ ch, (compute_photometric_stereo_impl lights images).1 y x ch = 0) ∧
      (∀ c, (compute_photometric_stereo_impl lights images).2 y x c = 0)) := by
  constructor
  · rintro ⟨ch, hch⟩
    have hmask : ¬ psMask lights images y x := by
      intro hm
      apply hch
      show psAlbedoOut lights images y x ch = 0
      unfold psAlbedoOut
      rw [if_pos hm]
    have hkd : psKd lights images y x ≠ 0 :=
      fun h => hmask (psMask_of_kd_zero lights images y x h)
    have hout : ∀ c, (compute_photometric_stereo_impl lights images).2 y x c
        = psNormals1 lights images y x c := by
      intro c
      show psNormalsOut lights images y x c = _
      unfold psNormalsOut
      rw [if_neg hmask]
    rw [Finset.sum_congr rfl fun c _ => by rw [hout c]]
    rw [psNormals1_unit_of_kd_ne_zero lights images y x hkd, Real.sqrt_one]
    norm_num
  · intro hlt
    by_cases hm : psMask lights images y x
    · constructor
      · intro ch
        show psAlbedoOut lights images y x ch = 0
        unfold psAlbedoOut
        rw [if_pos hm]
      · intro c
        show psNormalsOut lights images y x c = 0
        unfold psNormalsOut
        rw [if_pos hm]
    · exfalso
      apply hm
      unfold psMask
      have hout : ∀ ch, (compute_photometric_stereo_impl lights images).1 y x ch
          = psAlbedo0 lights images y x ch := by
        intro ch
        show psAlbedoOut lights images y x ch = _
        unfold psAlbedoOut
        rw [if_neg hm]
      have hsum : ∑ ch : Fin (C + 1), psAlbedo0 lights images y x ch ^ 2
          = ∑ ch : Fin (C + 1),
            (compute_photometric_stereo_impl lights images).1 y x ch ^ 2 :=
        Finset.sum_congr rfl fun ch _ => by rw [hout ch]
      rw [hsum]
      exact hlt

theorem inv3_lightsId : inv3 (lightsId * lightsIdᵀ) = 1 := by
  unfold inv3 lightsId
  simp

theorem psG_example (c : Fin 3) :
    psG lightsId imgsPS 0 0 c = if c = 0 then 1 else 0 := by
  unfold psG
  rw [inv3_lightsId]
  unfold psI imgsPS lightsId
  fin_cases c <;> simp [Matrix.one_apply, Fin.sum_univ_three]

/-- The `kd = 0` degeneracy of C9 is reachable: all-black images give a
zero `G` and hence `kd = 0`. -/
theorem psKd_zero_example : psKd lightsId imgsZero 0 0 = 0 := by
  have hG : ∀ c : Fin 3, psG lightsId imgsZero 0 0 c = 0 := by
    intro c
    unfold psG psI imgsZero
    simp
  unfold psKd
  rw [Finset.sum_eq_zero fun c _ => by rw [hG c]; norm_num]
  exact Real.sqrt_zero

/-- The nonzero-albedo branch of C3 is reachable: with identity lights and
`imgsPS` the returned albedo at the only pixel is 1. -/
theorem psAlbedoOut_example_ne_zero :
    (compute_photometric_stereo_impl lightsId imgsPS).1 0 0 0 ≠ 0 := by
  have hkdsq : ∑ c : Fin 3, psG lightsId imgsPS 0 0 c ^ 2 = 1 := by
    rw [Fin.sum_univ_three, psG_example 0, psG_example 1, psG_example 2]
    norm_num [show (1 : Fin 3) ≠ 0 from by decide, show (2 : Fin 3) ≠ 0 from by decide]
  have hguard : psKdGuard lightsId imgsPS 0 0 = 1 := by
    unfold psKdGuard psKd
    rw [hkdsq, Real.sqrt_one]
    norm_num
  have hn1 : ∀ c : Fin 3, psNormals1 lightsId imgsPS 0 0 c = if c = 0 then 1 else 0 := by
    intro c
    unfold psNormals1 psNormals0
    rw [hguard, if_neg one_ne_zero, psG_example c, div_one]
  have hdot : ∀ j : Fin 3, psDotNL lightsId imgsPS 0 0 j = if j = 0 then 1 else 0 := by
    intro j
    unfold psDotNL
    rw [Fin.sum_univ_three, hn1 0, hn1 1, hn1 2]
    unfold lightsId
    fin_cases j <;> simp [Matrix.one_apply]
  have hdeng : psDenGuard lightsId imgsPS 0 0 0 = 1 := by
    have hden : psDen lightsId imgsPS 0 0 0 = 1 := by
      unfold psDen
      rw [Fin.sum_univ_three, hdot 0, hdot 1, hdot 2]
      norm_num [show (1 : Fin 3) ≠ 0 from by decide, show (2 : Fin 3) ≠ 0 from by decide]
    unfold psDenGuard
    rw [hden]
    norm_num
  have hnum : psNum lightsId imgsPS 0 0 0 = 1 := by
    unfold psNum
    rw [Fin.sum_univ_three, hdot 0, hdot 1, hdot 2]
    unfold imgsPS
    norm_num [show (1 : Fin 3) ≠ 0 from by decide, show (2 : Fin 3) ≠ 0 from by decide]
  have halb : psAlbedo0 lightsId imgsPS 0 0 0 = 1 := by
    unfold psAlbedo0
    rw [hnum, hdeng]
    norm_num
  have hmask : ¬ psMask lightsId imgsPS 0 0 := by
    unfold psMask
    rw [show (∑ ch : Fin (0 + 1), psAlbedo0 lightsId imgsPS 0 0 ch ^ 2)
        = psAlbedo0 lightsId imgsPS 0 0 0 ^ 2 from Fin.sum_univ_one _, halb]
    rw [one_pow, Real.sqrt_one]
    norm_num
  show psAlbedoOut lightsId imgsPS 0 0 0 ≠ 0
  unfold psAlbedoOut
  rw [if_neg hmask, halb]
  norm_num

/-- C3 witness: identity lights, concrete images. -/
theorem photometric_stereo_normal_unit_and_zero_policy_witness :
    (lightsId * lightsIdᵀ).det ≠ 0 ∧
      (((∃ ch, (compute_photometric_stereo_impl lightsId imgsPS).1 0 0 ch ≠ 0) →
        |Real.sqrt (∑ c : Fin 3,
            (compute_photometric_stereo_impl lightsId imgsPS).2 0 0 c ^ 2) - 1|
          ≤ 1 / 100000) ∧
      (Real.sqrt (∑ ch : Fin 1,
          (compute_photometric_stereo_impl lightsId imgsPS).1 0 0 ch ^ 2)
          < 1 / 10000000 →
        (∀ ch, (compute_photometric_stereo_impl lightsId imgsPS).1 0 0 ch = 0) ∧
        (∀ c, (compute_photometric_stereo_impl lightsId imgsPS).2 0 0 c = 0))) :=
  ⟨by simp [lightsId],
    photometric_stereo_normal_unit_and_zero_policy lightsId imgsPS
      (by simp [lightsId]) 0 0⟩

/-- C5: each unprojected corner equals
`Rᵀ · (depth · K⁻¹ · (x, y, 1)) − Rᵀ · t` for the grid of homogeneous
corners `corners0`, with `R`, `t` extracted from `Rt` and `K⁻¹` the matrix
inverse. -/
theorem unproject_corners_formula (K : Matrix (Fin 3) (Fin 3) ℚ) (w h depth : ℚ)
    (Rt : Matrix (Fin 3) (Fin 4) ℚ) (hK : K.det ≠ 0) (i j : Fin 2) (c : Fin 3) :
    unproject_corners_impl K w h depth Rt i j c =
      ((rtR Rt)ᵀ.mulVec (depth • K⁻¹.mulVec (corners0 w h i j)) -
        (rtR Rt)ᵀ.mulVec (rtT Rt)) c := by
  have hinv : inv3 K = K⁻¹ := by
    unfold inv3
    rw [Matrix.inv_def, Ring.inverse_eq_inv]
  unfold unproject_corners_impl
  rw [hinv]
  simp only [Pi.sub_apply, Matrix.mulVec, Matrix.dotProduct, Matrix.transpose_apply,
    Pi.smul_apply, smul_eq_mul]
  congr 1
  refine Finset.sum_congr rfl fun k _ => ?_
  rw [show (∑ m : Fin 3, K⁻¹ k m * corners0 w h i j m)
      = ∑ m : Fin 3, corners0 w h i j m * K⁻¹ k m from
    Finset.sum_congr rfl fun m _ => mul_comm _ _]
  ring

/-- C5 witness: with `K = I`, `Rt = [I | 0]`, `depth = 1`, `width = height
= 2`, the corner at grid position (0, 1) — image corner (2, 0) — has first
coordinate 2. -/
theorem unproject_corners_formula_witness :
    (1 : Matrix (Fin 3) (Fin 3) ℚ).det ≠ 0 ∧
      unproject_corners_impl 1 2 2 1 rtId 0 1 0 = 2 := by
  have hdet : (1 : Matrix (Fin 3) (Fin 3) ℚ).det ≠ 0 := by simp
  refine ⟨hdet, ?_⟩
  rw [unproject_corners_formula 1 2 2 1 rtId hdet 0 1 0]
  simp [rtR, rtT, rtId, corners0, Matrix.mulVec, Matrix.dotProduct,
    Fin.sum_univ_succ, Matrix.one_apply]

/-- C4: `project_impl` divides by the third homogeneous coordinate when it
is at least 1e-7 and returns exactly (0, 0) otherwise. -/
theorem project_z_guard {H W : ℕ} (K : Matrix (Fin 3) (Fin 3) ℚ)
    (Rt : Matrix (Fin 3) (Fin 4) ℚ) (points : Fin H → Fin W → Fin 3 → ℚ)
    (y : Fin H) (x : Fin W) :
    (1 / 10000000 ≤ projLoc K Rt (points y x) 2 →
      project_impl K Rt points y x 0 =
        projLoc K Rt (points y x) 0 / projLoc K Rt (points y x) 2 ∧
      project_impl K Rt points y x 1 =
        projLoc K Rt (points y x) 1 / projLoc K Rt (points y x) 2) ∧
    (projLoc K Rt (points y x) 2 < 1 / 10000000 →
      project_impl K Rt points y x 0 = 0 ∧ project_impl K Rt points y x 1 = 0) := by
  constructor
  · intro h
    exact ⟨by unfold project_impl; rw [if_pos h]; rfl,
      by unfold project_impl; rw [if_pos h]; rfl⟩
  · intro h
    have hn := not_le.mpr h
    exact ⟨by unfold project_impl; rw [if_neg hn],
      by unfold project_impl; rw [if_neg hn]⟩
